import Mathlib

/-!
Shallow embedding of the post ingestion and rendering pipeline of the
AljazOblonsek/portfolio repository (`src/utils/getPosts.ts`,
`src/utils/getReadingTimeInMinutes.ts`), together with models of the external
collaborators the pipeline calls into (`gray-matter`, `marked`,
`marked-gfm-heading-id`, `marked-highlight`, `highlight.js`).

Strings are handled at the `List Char` level wherever proofs need structural
reasoning, with `String` wrappers mirroring the TypeScript API.
-/

namespace Portfolio

/-- The JavaScript `\s` character class (as used by `String.prototype.trim` and
the regular expression `/\s+/` in `getReadingTimeInMinutes.ts`). -/
def jsWhitespace (c : Char) : Bool :=
  c = ' ' || c = '\t' || c = '\n' || c = '\r' || c = '\x0b' || c = '\x0c' ||
  c = ' ' || c = ' ' ||
  ((' ' : Char) ≤ c && c ≤ (' ' : Char)) ||
  c = ' ' || c = ' ' || c = ' ' || c = ' ' ||
  c = '　' || c = '﻿'

/-- JavaScript `String.prototype.trim`: strip leading and trailing `\s`
characters. -/
def trimL (l : List Char) : List Char :=
  ((l.dropWhile jsWhitespace).reverse.dropWhile jsWhitespace).reverse

/-- JavaScript `str.split(/\s+/)`: split at every maximal nonempty run of
whitespace, keeping the (possibly empty) pieces between the runs.  In
particular the empty string yields the single piece `[]`.  A whitespace
character opens a new piece boundary unless it merely extends the whitespace
run that follows it. -/
def jsSplitWs : List Char → List (List Char)
  | [] => [[]]
  | c :: rest =>
    match jsSplitWs rest with
    | [] => [[]]
    | p :: ps =>
      if jsWhitespace c then
        match rest with
        | [] => [] :: p :: ps
        | d :: _ => if jsWhitespace d then p :: ps else [] :: p :: ps
      else
        (c :: p) :: ps

/-- `getReadingTimeInMinutes` from `src/utils/getReadingTimeInMinutes.ts`:
`Math.ceil(text.trim().split(/\s+/).length / 200)`.  `Math.ceil` of the exact
division `w / 200` is the natural-number ceiling division `(w + 199) / 200`. -/
def getReadingTimeInMinutes (text : String) : Nat :=
  let wordsPerMiunte := 200
  let numberOfWords := (jsSplitWs (trimL text.data)).length
  (numberOfWords + (wordsPerMiunte - 1)) / wordsPerMiunte

/-- The word count used by `getReadingTimeInMinutes`. -/
def numberOfWords (text : String) : Nat :=
  (jsSplitWs (trimL text.data)).length

theorem jsSplitWs_ne_nil : ∀ l : List Char, jsSplitWs l ≠ [] := by
  intro l
  induction l with
  | nil => simp [jsSplitWs]
  | cons c rest ih =>
    simp only [jsSplitWs]
    cases h : jsSplitWs rest with
    | nil => simp
    | cons p ps =>
      cases hw : jsWhitespace c <;> cases rest <;> simp_all [jsSplitWs]
      split <;> simp

theorem one_le_numberOfWords (text : String) : 1 ≤ numberOfWords text := by
  have h := jsSplitWs_ne_nil (trimL text.data)
  unfold numberOfWords
  cases hs : jsSplitWs (trimL text.data) with
  | nil => exact absurd hs h
  | cons a l => simp

theorem getReadingTimeInMinutes_eq (text : String) :
    getReadingTimeInMinutes text = (numberOfWords text + 199) / 200 := rfl

/-- C2: for every string `text`, `getReadingTimeInMinutes text` is the ceiling
of `w / 200`, where `w` is the number of tokens obtained by trimming `text` and
splitting on runs of whitespace (characterised as the least `n` with
`w ≤ 200 * n`); in particular a text with exactly `200 * n` words (`n ≥ 1`)
yields `n`. -/
theorem getReadingTimeInMinutes_ceiling_div (text : String) :
    numberOfWords text ≤ 200 * getReadingTimeInMinutes text ∧
    (∀ m : Nat, numberOfWords text ≤ 200 * m → getReadingTimeInMinutes text ≤ m) ∧
    (∀ n : Nat, 1 ≤ n → numberOfWords text = 200 * n →
      getReadingTimeInMinutes text = n) := by
  rw [getReadingTimeInMinutes_eq]
  refine ⟨by omega, fun m hm => by omega, fun n hn he => by omega⟩

set_option maxRecDepth 4000 in
/-- Witness for C2 at a concrete 200-word text: the estimate is exactly 1. -/
theorem getReadingTimeInMinutes_ceiling_div_witness :
    getReadingTimeInMinutes (String.intercalate " " (List.replicate 200 "a")) = 1 :=
  (getReadingTimeInMinutes_ceiling_div
      (String.intercalate " " (List.replicate 200 "a"))).2.2 1 (by decide) (by decide)

/-- C9: for every string, including the empty and whitespace-only strings,
`getReadingTimeInMinutes` returns at least 1; in particular
`getReadingTimeInMinutes "" = 1`, because splitting the trimmed empty string
on whitespace yields one (empty) token. -/
theorem one_le_getReadingTimeInMinutes (text : String) :
    1 ≤ getReadingTimeInMinutes text ∧
    getReadingTimeInMinutes "" = 1 ∧ numberOfWords "" = 1 := by
  refine ⟨?_, by decide, by decide⟩
  rw [getReadingTimeInMinutes_eq]
  have := one_le_numberOfWords text
  omega

/-! ## Line splitting and searching -/

/-- Split a character list at every `'\n'` (the pieces do not contain the
separator; `n` separators yield `n + 1` pieces). -/
def linesL : List Char → List (List Char)
  | [] => [[]]
  | c :: rest =>
    if c = '\n' then [] :: linesL rest
    else
      match linesL rest with
      | [] => [[c]]
      | p :: ps => (c :: p) :: ps

/-- `String.prototype.indexOf` for a character-list needle: index of the first
occurrence of `pat`, or `none`. -/
def indexOfSeq (pat : List Char) : List Char → Option Nat
  | [] => if pat.isEmpty then some 0 else none
  | c :: rest =>
    if pat.isPrefixOf (c :: rest) then some 0
    else (indexOfSeq pat rest).map (· + 1)

/-! ## Model of the `gray-matter` dependency

`getPosts.ts` parses each document with `matter(fileContents)` from the
`gray-matter` npm package.  That package is not part of this repository; the
definitions below model its behaviour: a document starting with the `---`
marker has everything up to the first `\n---` parsed as a `key: value`
metadata block (quotes stripped from values), and the remainder after that
closing marker (with one leading newline stripped) is the content.  A document
that does not start with the marker is returned whole as content with empty
metadata; a document whose closing marker is missing has its entire remainder
treated as the metadata block and an empty content. -/

/-- Strip one pair of matching surrounding single or double quotes. -/
def unquote (l : List Char) : List Char :=
  match l with
  | [] => []
  | c :: rest =>
    if (c = '\'' || c = '"') && rest.getLast? = some c then l.tail.dropLast else l

/-- Parse one `key: value` line of a front-matter block. -/
def parseMatterLine (line : List Char) : Option (String × String) :=
  let key := line.takeWhile (· ≠ ':')
  match line.dropWhile (· ≠ ':') with
  | [] => none
  | _ :: v => some (⟨trimL key⟩, ⟨unquote (trimL v)⟩)

/-- Parse a front-matter block as a simple `key: value` map. -/
def parseYamlBlock (block : List Char) : List (String × String) :=
  (linesL block).filterMap parseMatterLine

/-- Result of `matter(...)`: the parsed metadata and the remaining content. -/
structure GrayMatterFile where
  data : List (String × String)
  content : String
deriving DecidableEq

/-- Model of `matter` from `gray-matter` (delimiter handling as in that
package): opening marker `---` at position 0 (and not followed by a fourth
`-`), closing marker at the first occurrence of `"\n---"`. -/
def matterParseL (l : List Char) : GrayMatterFile :=
  if ¬ (['-', '-', '-'].isPrefixOf l) then ⟨[], ⟨l⟩⟩
  else if (l.drop 3).head? = some '-' then ⟨[], ⟨l⟩⟩
  else
    let str := l.drop 3
    let raw := str.takeWhile (· ≠ '\n')
    let str := str.drop raw.length
    match indexOfSeq ['\n', '-', '-', '-'] str with
    | none => ⟨parseYamlBlock str, ⟨[]⟩⟩
    | some i =>
      let block := str.take i
      let rest := str.drop (i + 4)
      let rest := if rest.head? = some '\r' then rest.drop 1 else rest
      let rest := if rest.head? = some '\n' then rest.drop 1 else rest
      ⟨parseYamlBlock block, ⟨rest⟩⟩

/-- `matter(fileContents)` on strings. -/
def matterParse (s : String) : GrayMatterFile := matterParseL s.data

/-- Field access on the parsed metadata (`matterResult.data.title` etc.); a
missing key propagates as the empty value. -/
def dataGet (d : List (String × String)) (key : String) : String :=
  match d.find? (fun kv => kv.1 == key) with
  | some kv => kv.2
  | none => ""

/-! ## `String.prototype.replaceAll`

`getPosts.ts` line 101 uses `matterResult.content.replaceAll(tok, value)`.
The model scans left to right; at each occurrence of the (nonempty) pattern it
emits the replacement and resumes after the occurrence, so replacements are
not rescanned.  The structural fuel argument is initialised with the length of
the scanned list, which the scan never exceeds. -/

def replaceAllAux (p : Char) (ps rep : List Char) : Nat → List Char → List Char
  | _, [] => []
  | 0, l => l
  | fuel + 1, c :: rest =>
    if c = p && ps.isPrefixOf rest then
      rep ++ replaceAllAux p ps rep fuel (rest.drop ps.length)
    else
      c :: replaceAllAux p ps rep fuel rest

/-- JavaScript `l.replaceAll(pat, rep)` for a nonempty pattern (the only way
the repository calls it; an empty pattern is modelled as the identity). -/
def replaceAllL (l pat rep : List Char) : List Char :=
  match pat with
  | [] => l
  | p :: ps => replaceAllAux p ps rep l.length l

/-- `String.prototype.replaceAll` on strings. -/
def jsReplaceAll (s pat rep : String) : String :=
  ⟨replaceAllL s.data pat.data rep.data⟩

/-! ## Model of the content renderer

`getPosts.ts` lines 49–59 configure the `marked` renderer with
`gfmHeadingId (prefix := 'section')` and `markedHighlight` whose `highlight`
callback is translated below verbatim.  `marked`, its two plugins, and
`highlight.js` are external packages, so the markdown-to-HTML conversion
itself is modelled from the spec (§4.3): headings (modelled at the `## ` level
the claims exercise) become `<h2>` elements with a deterministic
prefix-plus-slug id, fenced code blocks are syntax-highlighted with the
declared language tag, and other lines become HTML-escaped paragraphs. -/

/-- HTML escaping of one character, as performed by the renderer. -/
def escapeHtmlChar (c : Char) : List Char :=
  if c = '&' then "&amp;".data
  else if c = '<' then "&lt;".data
  else if c = '>' then "&gt;".data
  else if c = '"' then "&quot;".data
  else [c]

/-- HTML escaping of body text. -/
def escapeHtml (l : List Char) : List Char := l.flatMap escapeHtmlChar

/-- Modelled from the spec: the set of languages registered with
`highlight.js` (`hljs.getLanguage(lang)` is defined exactly for these);
`plaintext` is always registered. -/
def hljsGetLanguage (lang : String) : Bool :=
  ["bash", "javascript", "typescript", "json", "html", "xml", "css",
   "python", "plaintext"].contains lang

/-- Modelled from the spec: `hljs.highlight(code, { language }).value`
produces HTML for the code with CSS classes for tokens; modelled as the
HTML-escaped code wrapped in a span carrying the language's class. -/
def hljsHighlight (code : List Char) (language : String) : List Char :=
  "<span class=\"hljs-".data ++ language.data ++ "\">".data ++
    escapeHtml code ++ "</span>".data

/-- The `highlight` callback installed by `marked.use(markedHighlight ...)`
(`getPosts.ts` lines 54–57): an unregistered language tag falls back to
`plaintext`. -/
def highlightCode (code : List Char) (lang : String) : List Char :=
  let language := if hljsGetLanguage lang then lang else "plaintext"
  hljsHighlight code language

/-- The heading-id prefix configured at `getPosts.ts` line 49:
`gfmHeadingId (prefix := 'section')`. -/
def gfmHeadingIdPrefix : String := "section"

/-- Modelled from the spec (glossary): the slug of a heading text — a
URL-safe, lowercase, hyphenated derivation (spaces become hyphens;
letters are lowercased; digits, hyphens and underscores are kept; all other
characters are dropped). -/
def slugChar (c : Char) : List Char :=
  if c = ' ' then ['-']
  else if c.isAlpha then [c.toLower]
  else if c.isDigit || c = '-' || c = '_' then [c]
  else []

/-- Slug of a heading text. -/
def slugify (l : List Char) : List Char := l.flatMap slugChar

/-- Modelled from the spec: the line-by-line markdown rendering of `marked`
with the two configured plugins.  The first argument is `some lang` while
inside a fenced code block declared with language tag `lang`. -/
def renderLines : Option String → List (List Char) → List Char
  | _, [] => []
  | none, line :: rest =>
    if ['`', '`', '`'].isPrefixOf line then
      let lang := line.drop 3
      "<pre><code class=\"hljs language-".data ++ lang ++ "\">\n".data ++
        renderLines (some ⟨lang⟩) rest
    else if ['#', '#', ' '].isPrefixOf line then
      let text := line.drop 3
      "<h2 id=\"".data ++ gfmHeadingIdPrefix.data ++ slugify text ++ "\">".data ++
        escapeHtml text ++ "</h2>\n".data ++ renderLines none rest
    else
      "<p>".data ++ escapeHtml line ++ "</p>\n".data ++ renderLines none rest
  | some lang, line :: rest =>
    if line = ['`', '`', '`'] then
      "</code></pre>\n".data ++ renderLines none rest
    else
      highlightCode line lang ++ "\n".data ++ renderLines (some lang) rest

/-- Modelled from the spec: `marked(content)` — markdown to HTML. -/
def marked (content : String) : String :=
  ⟨renderLines none (linesL content.data)⟩

/-! ## The Post repository (`getPosts.ts`)

The backing document store (the `src/posts` directory) is modelled as the
list of its `(fileName, fileContents)` pairs, in enumeration order. -/

/-- `Post` from `src/types/Post.ts`. -/
structure Post where
  id : String
  title : String
  description : String
  coverPath : String
  readTimeInMinutes : String
  postedAt : String
deriving DecidableEq

/-- `PostWithHtmlContent` from `src/types/Post.ts`. -/
structure PostWithHtmlContent extends Post where
  htmlContent : String
deriving DecidableEq

/-- `fileName.replace(/\.md$/, '')` (`getPosts.ts` line 68): strip one final
`.md`. -/
def deriveIdL (l : List Char) : List Char :=
  if ['d', 'm', '.'].isPrefixOf l.reverse then (l.reverse.drop 3).reverse else l

/-- Derived post id of a file name. -/
def deriveId (fileName : String) : String := ⟨deriveIdL fileName.data⟩

/-- The summary record assembled for one file (`getPosts.ts` lines 66–88). -/
def mkPost (fileName contents : String) : Post :=
  let id := deriveId fileName
  let matterResult := matterParse contents
  { id := id
    title := dataGet matterResult.data "title"
    description := dataGet matterResult.data "description"
    coverPath := dataGet matterResult.data "coverPath"
    readTimeInMinutes := toString (getReadingTimeInMinutes matterResult.content)
    postedAt := dataGet matterResult.data "date" }

/-- `getPosts` (`getPosts.ts` lines 61–92): enumerate the store, skip
`.gitkeep`, build a summary per file, and sort with the comparator
`(a, b) => a.postedAt < b.postedAt ? 1 : -1` — i.e. a stable sort placing `a`
no later than `b` exactly when `¬(a.postedAt < b.postedAt)`. -/
def getPosts (store : List (String × String)) : List Post :=
  let allPosts :=
    (store.filter (fun e => e.1 != ".gitkeep")).map (fun e => mkPost e.1 e.2)
  allPosts.mergeSort (fun a b => !decide (a.postedAt < b.postedAt))

/-- The one failure of `getPostWithHtmlContent`: `fs.readFileSync` raises
`ENOENT` (file not found) when no file named `id ++ ".md"` exists. -/
inductive PostsError where
  | notFound
deriving DecidableEq

/-- The base-URL placeholder token replaced at `getPosts.ts` line 102. -/
def nextPublicBaseUrlToken : String := "\x7b\x7bNEXT_PUBLIC_BASE_URL\x7d\x7d"

/-- `getPostWithHtmlContent` (`getPosts.ts` lines 94–117).  The
`process.env.NEXT_PUBLIC_BASE_URL` configuration value is passed explicitly
as `baseUrl`. -/
def getPostWithHtmlContent (baseUrl : String) (store : List (String × String))
    (id : String) : Except PostsError PostWithHtmlContent :=
  match store.find? (fun e => e.1 == id ++ ".md") with
  | none => .error .notFound
  | some e =>
    let matterResult := matterParse e.2
    let contentWithReplacedBaseUrl :=
      jsReplaceAll matterResult.content nextPublicBaseUrlToken baseUrl
    .ok { id := id
          title := dataGet matterResult.data "title"
          description := dataGet matterResult.data "description"
          coverPath := dataGet matterResult.data "coverPath"
          readTimeInMinutes := toString (getReadingTimeInMinutes matterResult.content)
          postedAt := dataGet matterResult.data "date"
          htmlContent := marked contentWithReplacedBaseUrl }

/-! ## C1: listing order -/

/-- C1: for every input directory of post documents, the sequence returned by
`getPosts` is ordered by `postedAt` descending under (lexicographic) string
comparison: any two adjacent summaries `s_i`, `s_{i+1}` satisfy
`s_{i+1}.postedAt ≤ s_i.postedAt`. -/
theorem getPosts_sorted_by_postedAt_desc (store : List (String × String)) :
    (getPosts store).Chain' (fun a b => b.postedAt ≤ a.postedAt) := by
  refine List.Pairwise.chain' ?_
  have h := @List.sorted_mergeSort Post
    (fun a b : Post => !decide (a.postedAt < b.postedAt))
    (fun a b c hab hbc => by
      simp only [Bool.not_eq_true', decide_eq_false_iff_not, not_lt] at *
      exact le_trans hbc hab)
    (fun a b => by
      simp only [Bool.or_eq_true, Bool.not_eq_true', decide_eq_false_iff_not, not_lt]
      exact (le_total b.postedAt a.postedAt).imp id id)
    ((store.filter (fun e => e.1 != ".gitkeep")).map (fun e => mkPost e.1 e.2))
  exact h.imp (fun hab => by simpa [not_lt] using hab)

/-! ## C3: missing id fails with not-found -/

theorem deriveIdL_append_md (l : List Char) :
    deriveIdL (l ++ ['.', 'm', 'd']) = l := by
  unfold deriveIdL
  rw [List.reverse_append]
  simp [List.isPrefixOf]

theorem deriveId_append_md (id : String) : deriveId (id ++ ".md") = id := by
  unfold deriveId
  rw [String.data_append]
  rw [show (".md" : String).data = ['.', 'm', 'd'] from rfl, deriveIdL_append_md]

/-- C3: for every id for which no source document with a matching derived id
exists in the backing store, `getPostWithHtmlContent` fails with the
not-found error (`fs.readFileSync` raising `ENOENT` on the missing path). -/
theorem getPostWithHtmlContent_notFound (baseUrl : String)
    (store : List (String × String)) (id : String)
    (h : ∀ e ∈ store, deriveId e.1 ≠ id) :
    getPostWithHtmlContent baseUrl store id = .error .notFound := by
  unfold getPostWithHtmlContent
  have hfind : store.find? (fun e => e.1 == id ++ ".md") = none := by
    rw [List.find?_eq_none]
    intro e he
    simp only [beq_iff_eq]
    intro heq
    exact h e he (heq ▸ deriveId_append_md id)
  rw [hfind]

/-- Witness for C3: over a one-document store, looking up `missing-id` fails
with the not-found error. -/
theorem getPostWithHtmlContent_notFound_witness :
    getPostWithHtmlContent "https://example.com"
      [("a.md", "---\ntitle: 'A'\n---\nhello")] "missing-id" = .error .notFound :=
  getPostWithHtmlContent_notFound "https://example.com"
    [("a.md", "---\ntitle: 'A'\n---\nhello")] "missing-id" (by decide)

/-! ## C5: `readTimeInMinutes` is always recomputed -/

/-- C5: for every source document — also one whose front matter declares a
`readTimeInMinutes` field — the `readTimeInMinutes` of the resulting summary
and detail is the recomputed estimator output on the document body (as a
decimal string); two documents with the same body always yield the same
value, so the declared front-matter field is never used. -/
theorem readTimeInMinutes_recomputed (f₁ f₂ c₁ c₂ : String) :
    ((mkPost f₁ c₁).readTimeInMinutes
        = toString (getReadingTimeInMinutes (matterParse c₁).content)) ∧
    (∀ (baseUrl : String) (store : List (String × String)) (id : String)
        (e : String × String) (d : PostWithHtmlContent),
      store.find? (fun e => e.1 == id ++ ".md") = some e →
      getPostWithHtmlContent baseUrl store id = .ok d →
      d.readTimeInMinutes
        = toString (getReadingTimeInMinutes (matterParse e.2).content)) ∧
    ((matterParse c₁).content = (matterParse c₂).content →
      (mkPost f₁ c₁).readTimeInMinutes = (mkPost f₂ c₂).readTimeInMinutes) := by
  refine ⟨rfl, ?_, ?_⟩
  · intro baseUrl store id e d hfind hok
    unfold getPostWithHtmlContent at hok
    rw [hfind] at hok
    cases hok
    rfl
  · intro hbody
    show toString (getReadingTimeInMinutes (matterParse c₁).content) = _
    rw [hbody]
    rfl

/-- Witness for C5: a document declaring `readTimeInMinutes: '999'` over a
one-word body still gets the recomputed value `"1"`. -/
theorem readTimeInMinutes_recomputed_witness :
    (mkPost "a.md"
        "---\ntitle: 'A'\nreadTimeInMinutes: '999'\n---\nword").readTimeInMinutes
      = "1" :=
  (readTimeInMinutes_recomputed "a.md" "a.md"
      "---\ntitle: 'A'\nreadTimeInMinutes: '999'\n---\nword" "").1.trans (by decide)

/-! ## C6: malformed front matter does not fail -/

/-- C6 counterexample: the document `"---\ntitle: 'T'"` is missing the
closing marker, yet the parse step returns a (metadata, body) result — the
remainder parsed as metadata and an empty body — instead of failing with a
`MalformedDocument` error, and `getPosts` over a store holding that document
happily builds a post from it. -/
theorem matterParse_missing_close_counterexample :
    matterParse "---\ntitle: 'T'" = ⟨[("title", "T")], ""⟩ ∧
    getPosts [("t.md", "---\ntitle: 'T'")]
      = [{ id := "t", title := "T", description := "", coverPath := "",
           readTimeInMinutes := "1", postedAt := "" }] := by
  refine ⟨by decide, ?_⟩
  show List.mergeSort [mkPost "t.md" "---\ntitle: 'T'"] _ = _
  rw [List.mergeSort_singleton]
  decide

/-- C6 amended: the parse step never fails on a malformed metadata block: a
document missing the opening marker is returned whole as the body with empty
metadata, and a document missing the closing marker (such as
`"---\ntitle: 'T'"`) has its entire remainder parsed as metadata with an
empty body. -/
theorem matterParse_malformed_returns_result (doc : String)
    (hopen : ¬ (['-', '-', '-'].isPrefixOf doc.data)) :
    matterParse doc = ⟨[], doc⟩ ∧
    matterParse "---\ntitle: 'T'" = ⟨[("title", "T")], ""⟩ := by
  refine ⟨?_, by decide⟩
  unfold matterParse matterParseL
  rw [if_pos hopen]

/-- Witness for C6's amended theorem at the document `"hello"`. -/
theorem matterParse_malformed_returns_result_witness :
    matterParse "hello" = ⟨[], "hello"⟩ :=
  (matterParse_malformed_returns_result "hello" (by decide)).1

/-! ## C7: unknown code-block language falls back to plaintext -/

/-- C7: the `highlight` callback configured on the renderer applies the
generic `plaintext` highlighting mode whenever the declared language tag is
not recognized, and highlights in the declared language whenever it is; in
either case it totally produces HTML (no error is raised). -/
theorem highlightCode_unknown_language_fallback (code : List Char) (lang : String) :
    (hljsGetLanguage lang = false →
      highlightCode code lang = hljsHighlight code "plaintext") ∧
    (hljsGetLanguage lang = true →
      highlightCode code lang = hljsHighlight code lang) := by
  unfold highlightCode
  constructor
  · intro h
    rw [h]
    simp
  · intro h
    rw [h]
    simp

/-- Witness for C7: the unrecognized tag `klingon` falls back to `plaintext`,
and the recognized tag `typescript` is kept. -/
theorem highlightCode_unknown_language_fallback_witness :
    highlightCode "let x = 1".data "klingon" = hljsHighlight "let x = 1".data "plaintext" ∧
    highlightCode "let x = 1".data "typescript" = hljsHighlight "let x = 1".data "typescript" :=
  ⟨(highlightCode_unknown_language_fallback "let x = 1".data "klingon").1 (by decide),
   (highlightCode_unknown_language_fallback "let x = 1".data "typescript").2 (by decide)⟩

/-! ## C8: heading anchors -/

theorem linesL_eq_singleton {l : List Char} (h : '\n' ∉ l) : linesL l = [l] := by
  induction l with
  | nil => rfl
  | cons c rest ih =>
    simp only [List.mem_cons, not_or] at h
    rw [linesL, if_neg (fun hc => h.1 hc.symm), ih h.2]

/-- C8: a heading produces an HTML heading whose id attribute is the
configured prefix followed by the slug of the heading text; in particular
`"## Section One"` renders to an HTML heading with id
`"sectionsection-one"` (the prefix `section` concatenated with the slug
`section-one`), and being a pure function of the content the id is identical
across renders of the same content. -/
theorem render_heading_id (text : List Char) (h : '\n' ∉ text) :
    marked ⟨'#' :: '#' :: ' ' :: text⟩
      = ⟨"<h2 id=\"".data ++ gfmHeadingIdPrefix.data ++ slugify text ++ "\">".data
          ++ escapeHtml text ++ "</h2>\n".data⟩ ∧
    marked "## Section One" = "<h2 id=\"sectionsection-one\">Section One</h2>\n" := by
  refine ⟨?_, by decide⟩
  unfold marked
  rw [show ((⟨'#' :: '#' :: ' ' :: text⟩ : String)).data = '#' :: '#' :: ' ' :: text from rfl]
  rw [linesL_eq_singleton (by simpa using h)]
  rw [renderLines]
  simp [List.isPrefixOf, renderLines]

/-- Witness for C8 at the heading text `Section One`. -/
theorem render_heading_id_witness :
    marked "## Section One" = "<h2 id=\"sectionsection-one\">Section One</h2>\n" :=
  (render_heading_id "Section One".data (by decide)).2

/-! ## C10: the detail extends the summary -/

theorem eq_of_mem_of_fst_eq {l : List (String × String)}
    (hnd : (l.map Prod.fst).Nodup) {e₁ e₂ : String × String}
    (h₁ : e₁ ∈ l) (h₂ : e₂ ∈ l) (hfst : e₁.1 = e₂.1) : e₁ = e₂ := by
  induction l with
  | nil => cases h₁
  | cons a l ih =>
    rw [List.map_cons, List.nodup_cons] at hnd
    rcases List.mem_cons.mp h₁ with h₁a | h₁l
    · rcases List.mem_cons.mp h₂ with h₂a | h₂l
      · rw [h₁a, h₂a]
      · exact absurd (h₁a ▸ hfst.symm ▸ List.mem_map_of_mem Prod.fst h₂l) hnd.1
    · rcases List.mem_cons.mp h₂ with h₂a | h₂l
      · exact absurd (h₂a ▸ hfst ▸ List.mem_map_of_mem Prod.fst h₁l) hnd.1
      · exact ih hnd.2 h₁l h₂l

/-- C10: over a backing store that is a directory of `.md` documents (unique
file names; every non-`.gitkeep` name carries the `.md` extension), every
summary returned by `getPosts` can be looked up again:
`getPostWithHtmlContent` on its id succeeds and returns a detail agreeing
with the summary on `id`, `title`, `description`, `coverPath`,
`readTimeInMinutes` and `postedAt`. -/
theorem getPostWithHtmlContent_extends_summary (baseUrl : String)
    (store : List (String × String)) (p : Post)
    (hmd : ∀ e ∈ store, e.1 = ".gitkeep" ∨ ∃ b, e.1 = b ++ ".md")
    (hnd : (store.map Prod.fst).Nodup)
    (hp : p ∈ getPosts store) :
    ∃ d, getPostWithHtmlContent baseUrl store p.id = .ok d ∧
      d.id = p.id ∧ d.title = p.title ∧ d.description = p.description ∧
      d.coverPath = p.coverPath ∧ d.readTimeInMinutes = p.readTimeInMinutes ∧
      d.postedAt = p.postedAt := by
  unfold getPosts at hp
  have hp' := (List.mergeSort_perm _ _).mem_iff.mp hp
  rcases List.mem_map.mp hp' with ⟨e, he, rfl⟩
  have hef : e ∈ store := (List.mem_filter.mp he).1
  have hgit : (e.1 != ".gitkeep") = true := (List.mem_filter.mp he).2
  rcases hmd e hef with hkeep | ⟨b, hb⟩
  · rw [hkeep] at hgit
    simp at hgit
  have hid : (mkPost e.1 e.2).id = b := by
    show deriveId e.1 = b
    rw [hb]
    exact deriveId_append_md b
  have hname : (mkPost e.1 e.2).id ++ ".md" = e.1 := by rw [hid, hb]
  have hsat : ∃ x ∈ store, (x.1 == (mkPost e.1 e.2).id ++ ".md") = true :=
    ⟨e, hef, by rw [hname]; simp⟩
  obtain ⟨e', hfind⟩ :=
    Option.isSome_iff_exists.mp (List.find?_isSome.mpr hsat)
  have he'mem : e' ∈ store := List.mem_of_find?_eq_some hfind
  have he'fst : e'.1 = e.1 := by
    have := List.find?_some hfind
    rw [beq_iff_eq] at this
    rw [this, hname]
  have he'e : e' = e := eq_of_mem_of_fst_eq hnd he'mem hef he'fst
  subst he'e
  unfold getPostWithHtmlContent
  rw [hfind]
  exact ⟨_, rfl, rfl, rfl, rfl, rfl, rfl, rfl⟩

/-- Witness for C10 over a concrete one-document store. -/
theorem getPostWithHtmlContent_extends_summary_witness :
    ∃ d, getPostWithHtmlContent "https://example.com"
        [("a.md", "---\ntitle: 'A'\ndate: '2024-01-01'\n---\nhello")]
        (mkPost "a.md" "---\ntitle: 'A'\ndate: '2024-01-01'\n---\nhello").id = .ok d ∧
      d.id = (mkPost "a.md" "---\ntitle: 'A'\ndate: '2024-01-01'\n---\nhello").id ∧
      d.title = (mkPost "a.md" "---\ntitle: 'A'\ndate: '2024-01-01'\n---\nhello").title ∧
      d.description = (mkPost "a.md" "---\ntitle: 'A'\ndate: '2024-01-01'\n---\nhello").description ∧
      d.coverPath = (mkPost "a.md" "---\ntitle: 'A'\ndate: '2024-01-01'\n---\nhello").coverPath ∧
      d.readTimeInMinutes
        = (mkPost "a.md" "---\ntitle: 'A'\ndate: '2024-01-01'\n---\nhello").readTimeInMinutes ∧
      d.postedAt = (mkPost "a.md" "---\ntitle: 'A'\ndate: '2024-01-01'\n---\nhello").postedAt :=
  getPostWithHtmlContent_extends_summary "https://example.com"
    [("a.md", "---\ntitle: 'A'\ndate: '2024-01-01'\n---\nhello")]
    (mkPost "a.md" "---\ntitle: 'A'\ndate: '2024-01-01'\n---\nhello")
    (fun e he => by
      rcases List.mem_singleton.mp he with rfl
      exact Or.inr ⟨"a", by decide⟩)
    (by decide)
    (by
      show mkPost "a.md" _ ∈ List.mergeSort [mkPost "a.md" _] _
      rw [List.mergeSort_singleton]
      exact List.mem_singleton_self _)

/-! ## C4: the base-URL placeholder substitution -/

/-- The configured base URL used by the claim's scenario. -/
def exampleBase : List Char := "https://example.com".data

/-- The URL expected verbatim in the rendered output. -/
def exampleUrl : List Char := "https://example.com/x".data

theorem tok_head_tail :
    nextPublicBaseUrlToken.data = '\x7b' :: nextPublicBaseUrlToken.data.tail := rfl

theorem tok_length : nextPublicBaseUrlToken.data.length = 24 := rfl

/-- The placeholder token has no nontrivial border: no proper nonempty suffix
of it is one of its prefixes (so occurrences of the token cannot overlap). -/
theorem tok_no_border :
    ∀ k < 24, k = 0 ∨ nextPublicBaseUrlToken.data.drop k
        ≠ nextPublicBaseUrlToken.data.take (24 - k) := by decide

theorem replaceAllAux_cons (p : Char) (ps rep : List Char) (n : Nat)
    (c : Char) (rest : List Char) :
    replaceAllAux p ps rep (n + 1) (c :: rest)
      = if (decide (c = p) && ps.isPrefixOf rest) = true then
          rep ++ replaceAllAux p ps rep n (rest.drop ps.length)
        else c :: replaceAllAux p ps rep n rest := rfl

/-- The scan leaves the two characters `/x` following a replaced occurrence in
place (neither starts the token). -/
theorem replaceAllAux_keeps_slash_x (ps rep : List Char) (fuel : Nat) (w : List Char) :
    ∃ w', replaceAllAux '\x7b' ps rep fuel ('/' :: 'x' :: w) = '/' :: 'x' :: w' := by
  match fuel with
  | 0 => exact ⟨w, rfl⟩
  | 1 => exact ⟨w, by simp [replaceAllAux_cons, replaceAllAux]⟩
  | (n + 2) =>
    exact ⟨replaceAllAux '\x7b' ps rep n w, by simp [replaceAllAux_cons]⟩

/-- Replacing the token through a list that contains `token ++ "/x"` yields a
list containing `rep ++ "/x"`: the left-to-right scan reaches the occurrence
(the token has no border, so no earlier match can consume part of it) and
rewrites it to the replacement. -/
theorem replaceAllAux_occurrence (rep : List Char) (fuel : Nat) :
    ∀ (l u v : List Char), l.length ≤ fuel →
      l = u ++ (nextPublicBaseUrlToken.data ++ ('/' :: 'x' :: v)) →
      ∃ a b, replaceAllAux '\x7b' nextPublicBaseUrlToken.data.tail rep fuel l
          = a ++ ((rep ++ ['/', 'x']) ++ b) := by
  induction fuel with
  | zero =>
    intro l u v hlen heq
    have hL := congrArg List.length heq
    simp only [List.length_append, tok_length, List.length_cons] at hL
    omega
  | succ n ih =>
    intro l u v hlen heq
    cases l with
    | nil =>
      have hL := congrArg List.length heq
      simp only [List.length_nil, List.length_append, tok_length, List.length_cons] at hL
      omega
    | cons c rest =>
      rw [replaceAllAux_cons]
      have hrestlen : rest.length ≤ n := by
        simp only [List.length_cons] at hlen
        omega
      by_cases hmatch :
          (decide (c = '\x7b') && nextPublicBaseUrlToken.data.tail.isPrefixOf rest) = true
      · rw [if_pos hmatch]
        cases u with
        | nil =>
          rw [List.nil_append, tok_head_tail, List.cons_append] at heq
          obtain ⟨hc, hrest⟩ := List.cons.inj heq
          have hdrop : rest.drop nextPublicBaseUrlToken.data.tail.length
              = '/' :: 'x' :: v := by
            rw [hrest, List.drop_left]
          obtain ⟨w', hw'⟩ :=
            replaceAllAux_keeps_slash_x nextPublicBaseUrlToken.data.tail rep n v
          refine ⟨[], w', ?_⟩
          rw [hdrop, hw']
          simp
        | cons u₀ u' =>
          rw [List.cons_append] at heq
          obtain ⟨hc, hrest⟩ := List.cons.inj heq
          by_cases hlen' : 23 ≤ u'.length
          · have hdrop : rest.drop nextPublicBaseUrlToken.data.tail.length
                = u'.drop 23 ++ (nextPublicBaseUrlToken.data ++ ('/' :: 'x' :: v)) := by
              rw [hrest, show nextPublicBaseUrlToken.data.tail.length = 23 from rfl,
                List.drop_append_of_le_length hlen']
            have hdl : (rest.drop nextPublicBaseUrlToken.data.tail.length).length ≤ n := by
              rw [List.length_drop]
              omega
            obtain ⟨a, b, hab⟩ := ih (rest.drop nextPublicBaseUrlToken.data.tail.length)
              (u'.drop 23) v hdl hdrop
            exact ⟨rep ++ a, b, by rw [hab]; simp⟩
          · -- the match would start inside the token: impossible, no border
            exfalso
            rw [Bool.and_eq_true, decide_eq_true_eq] at hmatch
            obtain ⟨hcp, hpre⟩ := hmatch
            obtain ⟨r', hr'⟩ := List.isPrefixOf_iff_prefix.mp hpre
            have hl₁ : c :: rest = nextPublicBaseUrlToken.data ++ r' := by
              rw [tok_head_tail, List.cons_append, ← hr', hcp]
            have hl₂ : c :: rest
                = (u₀ :: u') ++ (nextPublicBaseUrlToken.data ++ ('/' :: 'x' :: v)) := by
              rw [List.cons_append, heq]
            have hklen : (u₀ :: u').length ≤ 24 := by
              simp only [List.length_cons]
              omega
            have h₁ : List.take 24 (c :: rest) = nextPublicBaseUrlToken.data := by
              rw [hl₁, List.take_append_eq_append_take,
                show List.take 24 nextPublicBaseUrlToken.data
                  = nextPublicBaseUrlToken.data from rfl,
                show 24 - nextPublicBaseUrlToken.data.length = 0 from rfl]
              simp
            have h₂ : List.take 24 (c :: rest)
                = (u₀ :: u') ++ nextPublicBaseUrlToken.data.take (24 - (u₀ :: u').length) := by
              rw [hl₂, List.take_append_eq_append_take, List.take_of_length_le hklen,
                List.take_append_eq_append_take, tok_length]
              have h0 : 24 - (u₀ :: u').length - 24 = 0 := by omega
              rw [h0, List.take_zero, List.append_nil]
            have htake := h₁.symm.trans h₂
            have hdropeq : nextPublicBaseUrlToken.data.drop (u₀ :: u').length
                = nextPublicBaseUrlToken.data.take (24 - (u₀ :: u').length) := by
              conv_lhs => rw [htake]
              rw [List.drop_left]
            have hk := tok_no_border (u₀ :: u').length
              (by simp only [List.length_cons]; omega)
            rcases hk with hk | hk
            · simp at hk
            · exact hk hdropeq
      · rw [if_neg hmatch]
        cases u with
        | nil =>
          exfalso
          rw [List.nil_append, tok_head_tail, List.cons_append] at heq
          obtain ⟨hc, hrest⟩ := List.cons.inj heq
          apply hmatch
          rw [hc, hrest, Bool.and_eq_true]
          exact ⟨by decide, List.isPrefixOf_iff_prefix.mpr (List.prefix_append _ _)⟩
        | cons u₀ u' =>
          rw [List.cons_append] at heq
          obtain ⟨hc, hrest⟩ := List.cons.inj heq
          obtain ⟨a, b, hab⟩ := ih rest u' v hrestlen hrest
          exact ⟨c :: a, b, by rw [hab]; simp⟩

theorem linesL_ne_nil : ∀ l : List Char, linesL l ≠ [] := by
  intro l
  cases l with
  | nil => simp [linesL]
  | cons c rest =>
    rw [linesL]
    by_cases hc : c = '\n'
    · rw [if_pos hc]
      simp
    · rw [if_neg hc]
      cases linesL rest <;> simp

theorem linesL_append_of_no_newline {t : List Char} (hn : '\n' ∉ t) :
    ∀ b, ∃ p ps, linesL b = p :: ps ∧ linesL (t ++ b) = (t ++ p) :: ps := by
  induction t with
  | nil =>
    intro b
    cases hb : linesL b with
    | nil => exact absurd hb (linesL_ne_nil b)
    | cons p ps => exact ⟨p, ps, rfl, by simpa using hb⟩
  | cons c t' ih =>
    intro b
    simp only [List.mem_cons, not_or] at hn
    obtain ⟨p, ps, hb, ht⟩ := ih hn.2 b
    refine ⟨p, ps, hb, ?_⟩
    rw [List.cons_append, linesL, if_neg (fun hc => hn.1 hc.symm), ht]
    rfl

theorem mem_linesL_of_occurrence {t : List Char} (hn : '\n' ∉ t) :
    ∀ (a b : List Char), ∃ la lb, (la ++ (t ++ lb)) ∈ linesL (a ++ (t ++ b)) := by
  intro a
  induction a with
  | nil =>
    intro b
    obtain ⟨p, ps, _, ht⟩ := linesL_append_of_no_newline hn b
    refine ⟨[], p, ?_⟩
    rw [List.nil_append, ht]
    exact List.mem_cons_self _ _
  | cons c a' ih =>
    intro b
    by_cases hc : c = '\n'
    · obtain ⟨la, lb, hm⟩ := ih b
      refine ⟨la, lb, ?_⟩
      rw [List.cons_append, linesL, if_pos hc]
      exact List.mem_cons_of_mem _ hm
    · obtain ⟨la, lb, hm⟩ := ih b
      rw [List.cons_append, linesL, if_neg hc]
      cases hl : linesL (a' ++ (t ++ b)) with
      | nil => exact absurd hl (linesL_ne_nil _)
      | cons p ps =>
        rw [hl] at hm
        rcases List.mem_cons.mp hm with hhead | htail
        · exact ⟨c :: la, lb, by rw [← hhead]; exact List.mem_cons_self _ _⟩
        · exact ⟨la, lb, List.mem_cons_of_mem _ htail⟩

theorem escapeHtml_append (a b : List Char) :
    escapeHtml (a ++ b) = escapeHtml a ++ escapeHtml b :=
  List.flatMap_append ..

/-- Splitting the position of an occurrence against a three-character marker
at the start of a line: if the occurrence's first character is none of the
marker's, the occurrence lies wholly after the marker. -/
theorem la_decomp_of_marker {m₀ m₁ m₂ t₀ : Char} {r line la t' lb : List Char}
    (hline : line = m₀ :: m₁ :: m₂ :: r)
    (hocc : line = la ++ ((t₀ :: t') ++ lb))
    (h0 : t₀ ≠ m₀) (h1 : t₀ ≠ m₁) (h2 : t₀ ≠ m₂) :
    ∃ la', la = m₀ :: m₁ :: m₂ :: la' ∧ r = la' ++ ((t₀ :: t') ++ lb) := by
  rw [hline] at hocc
  rcases la with _ | ⟨c, _ | ⟨d, _ | ⟨e0, la'⟩⟩⟩
  · rw [List.nil_append, List.cons_append] at hocc
    exact absurd (List.cons.inj hocc).1.symm h0
  · rw [List.cons_append, List.cons_append, List.nil_append] at hocc
    obtain ⟨-, hocc⟩ := List.cons.inj hocc
    exact absurd (List.cons.inj hocc).1.symm h1
  · rw [List.cons_append, List.cons_append, List.cons_append, List.nil_append] at hocc
    obtain ⟨-, hocc⟩ := List.cons.inj hocc
    obtain ⟨-, hocc⟩ := List.cons.inj hocc
    exact absurd (List.cons.inj hocc).1.symm h2
  · rw [List.cons_append, List.cons_append, List.cons_append] at hocc
    obtain ⟨h₀', hocc⟩ := List.cons.inj hocc
    obtain ⟨h₁', hocc⟩ := List.cons.inj hocc
    obtain ⟨h₂', hocc⟩ := List.cons.inj hocc
    exact ⟨la', by rw [h₀', h₁', h₂'], hocc⟩

theorem renderLines_none_cons (line : List Char) (rest : List (List Char)) :
    renderLines none (line :: rest)
      = if ['`', '`', '`'].isPrefixOf line then
          "<pre><code class=\"hljs language-".data ++ line.drop 3 ++ "\">\n".data ++
            renderLines (some ⟨line.drop 3⟩) rest
        else if ['#', '#', ' '].isPrefixOf line then
          "<h2 id=\"".data ++ gfmHeadingIdPrefix.data ++ slugify (line.drop 3) ++ "\">".data ++
            escapeHtml (line.drop 3) ++ "</h2>\n".data ++ renderLines none rest
        else
          "<p>".data ++ escapeHtml line ++ "</p>\n".data ++ renderLines none rest := rfl

theorem renderLines_some_cons (lang : String) (line : List Char)
    (rest : List (List Char)) :
    renderLines (some lang) (line :: rest)
      = if line = ['`', '`', '`'] then
          "</code></pre>\n".data ++ renderLines none rest
        else
          highlightCode line lang ++ "\n".data ++ renderLines (some lang) rest := rfl

theorem renderLines_cons_decomp (st : Option String) (line : List Char)
    (rest : List (List Char)) :
    ∃ E st', renderLines st (line :: rest) = E ++ renderLines st' rest := by
  cases st with
  | none =>
    rw [renderLines_none_cons]
    by_cases hf : ['`', '`', '`'].isPrefixOf line
    · rw [if_pos hf]
      exact ⟨"<pre><code class=\"hljs language-".data ++ (line.drop 3 ++ "\">\n".data),
        some ⟨line.drop 3⟩, by simp [List.append_assoc]⟩
    · rw [if_neg hf]
      by_cases hh : ['#', '#', ' '].isPrefixOf line
      · rw [if_pos hh]
        exact ⟨"<h2 id=\"".data ++ (gfmHeadingIdPrefix.data ++ (slugify (line.drop 3)
            ++ ("\">".data ++ (escapeHtml (line.drop 3) ++ "</h2>\n".data)))),
          none, by simp [List.append_assoc]⟩
      · rw [if_neg hh]
        exact ⟨"<p>".data ++ (escapeHtml line ++ "</p>\n".data),
          none, by simp [List.append_assoc]⟩
  | some lang =>
    rw [renderLines_some_cons]
    by_cases hc : line = ['`', '`', '`']
    · rw [if_pos hc]
      exact ⟨"</code></pre>\n".data, none, rfl⟩
    · rw [if_neg hc]
      exact ⟨highlightCode line lang ++ "\n".data, some lang,
        by simp [List.append_assoc]⟩

theorem highlightCode_decomp (line : List Char) (lang : String) :
    ∃ pre suf, highlightCode line lang = pre ++ (escapeHtml line ++ suf) := by
  refine ⟨"<span class=\"hljs-".data
      ++ ((if hljsGetLanguage lang then lang else "plaintext").data ++ "\">".data),
    "</span>".data, ?_⟩
  unfold highlightCode hljsHighlight
  simp [List.append_assoc]

/-- An occurrence of a marker-free, escape-free, more-than-three-character
text in some input line survives rendering: it appears verbatim in the
rendered output. -/
theorem renderLines_occurrence (t₀ : Char) (t' : List Char)
    (h0 : t₀ ≠ '`') (h1 : t₀ ≠ '#') (h2 : t₀ ≠ ' ')
    (hlen : 3 < (t₀ :: t').length)
    (hesc : escapeHtml (t₀ :: t') = t₀ :: t') :
    ∀ (lines : List (List Char)) (st : Option String) (line la lb : List Char),
      line ∈ lines → line = la ++ ((t₀ :: t') ++ lb) →
      ∃ a b, renderLines st lines = a ++ ((t₀ :: t') ++ b) := by
  intro lines
  induction lines with
  | nil =>
    intro st line la lb hm
    cases hm
  | cons ln rest ih =>
    intro st line la lb hm hocc
    rcases List.mem_cons.mp hm with rfl | hm'
    · cases st with
      | none =>
        rw [renderLines_none_cons]
        by_cases hf : ['`', '`', '`'].isPrefixOf line
        · rw [if_pos hf]
          obtain ⟨r, hr⟩ := List.isPrefixOf_iff_prefix.mp hf
          subst hr
          obtain ⟨la', hla, hr'⟩ := la_decomp_of_marker rfl hocc h0 h0 h0
          have hr'' : r = la' ++ ((t₀ :: t') ++ lb) := hr'
          have hdrop : (['`', '`', '`'] ++ r).drop 3 = r := rfl
          refine ⟨"<pre><code class=\"hljs language-".data ++ la',
            lb ++ ("\">\n".data ++ renderLines (some ⟨r⟩) rest), ?_⟩
          rw [hdrop]
          nth_rewrite 1 [hr'']
          simp [List.append_assoc]
        · rw [if_neg hf]
          by_cases hh : ['#', '#', ' '].isPrefixOf line
          · rw [if_pos hh]
            obtain ⟨r, hr⟩ := List.isPrefixOf_iff_prefix.mp hh
            subst hr
            obtain ⟨la', hla, hr'⟩ := la_decomp_of_marker rfl hocc h1 h1 h2
            have hr'' : r = la' ++ ((t₀ :: t') ++ lb) := hr'
            have hdrop : (['#', '#', ' '] ++ r).drop 3 = r := rfl
            have hescdec : escapeHtml r
                = escapeHtml la' ++ ((t₀ :: t') ++ escapeHtml lb) := by
              rw [hr'', escapeHtml_append, escapeHtml_append, hesc]
            refine ⟨"<h2 id=\"".data ++ gfmHeadingIdPrefix.data ++ slugify r
                ++ "\">".data ++ escapeHtml la',
              escapeHtml lb ++ ("</h2>\n".data ++ renderLines none rest), ?_⟩
            rw [hdrop, hescdec]
            simp [List.append_assoc]
          · rw [if_neg hh]
            have hescdec : escapeHtml line
                = escapeHtml la ++ ((t₀ :: t') ++ escapeHtml lb) := by
              rw [hocc, escapeHtml_append, escapeHtml_append, hesc]
            refine ⟨"<p>".data ++ escapeHtml la,
              escapeHtml lb ++ "</p>\n".data ++ renderLines none rest, ?_⟩
            rw [hescdec]
            simp [List.append_assoc]
      | some lang =>
        rw [renderLines_some_cons]
        by_cases hc : line = ['`', '`', '`']
        · exfalso
          have hL := congrArg List.length (hc.symm.trans hocc)
          simp only [List.length_append, List.length_cons, List.length_nil] at hL hlen
          omega
        · rw [if_neg hc]
          obtain ⟨pre, suf, hpre⟩ := highlightCode_decomp line lang
          have hescdec : escapeHtml line
              = escapeHtml la ++ ((t₀ :: t') ++ escapeHtml lb) := by
            rw [hocc, escapeHtml_append, escapeHtml_append, hesc]
          refine ⟨pre ++ escapeHtml la,
            escapeHtml lb ++ suf ++ "\n".data ++ renderLines (some lang) rest, ?_⟩
          rw [hpre, hescdec]
          simp [List.append_assoc]
    · obtain ⟨E, st', hE⟩ := renderLines_cons_decomp st ln rest
      obtain ⟨a, b, hab⟩ := ih st' line la lb hm' hocc
      exact ⟨E ++ a, b, by rw [hE, hab]; simp [List.append_assoc]⟩

theorem replaceAllL_tok (l rep : List Char) :
    replaceAllL l nextPublicBaseUrlToken.data rep
      = replaceAllAux '\x7b' nextPublicBaseUrlToken.data.tail rep l.length l := rfl

theorem exampleUrl_eq :
    "https://example.com".data ++ ['/', 'x'] = exampleUrl := rfl

/-- C4 counterexample: the claim's literal placeholder token
`\x7b\x7bBASE_URL\x7d\x7d` is not the token the code replaces
(`\x7b\x7bNEXT_PUBLIC_BASE_URL\x7d\x7d`): over a document whose body is the
literal `\x7b\x7bBASE_URL\x7d\x7d/x` and configured base URL
`https://example.com`, the produced `htmlContent` carries the body text
untouched and does not contain `https://example.com/x`. -/
theorem baseUrl_placeholder_token_counterexample :
    (getPostWithHtmlContent "https://example.com"
        [("p.md", "---\ntitle: 'P'\n---\n\x7b\x7bBASE_URL\x7d\x7d/x")] "p").toOption.map
        (fun d => d.htmlContent)
      = some "<p>\x7b\x7bBASE_URL\x7d\x7d/x</p>\n" ∧
    ¬ (exampleUrl <:+: ("<p>\x7b\x7bBASE_URL\x7d\x7d/x</p>\n" : String).data) := by
  constructor
  · decide
  · decide

/-- C4 amended (the placeholder token of the code is
`\x7b\x7bNEXT_PUBLIC_BASE_URL\x7d\x7d`): for every document whose body
contains that literal token followed by `/x`, with configured base URL
`https://example.com`, the `htmlContent` produced by `getPostWithHtmlContent`
contains `https://example.com/x` verbatim; the substitution is a literal
find-and-replace-all of the token with the configured value, applied to the
body before rendering. -/
theorem baseUrl_replaceAll_renders_verbatim
    (store : List (String × String)) (id : String) (e : String × String)
    (u v : List Char)
    (hfind : store.find? (fun x => x.1 == id ++ ".md") = some e)
    (hbody : (matterParse e.2).content.data
        = u ++ (nextPublicBaseUrlToken.data ++ ('/' :: 'x' :: v))) :
    ∃ d, getPostWithHtmlContent "https://example.com" store id = .ok d ∧
      d.htmlContent = marked (jsReplaceAll (matterParse e.2).content
          nextPublicBaseUrlToken "https://example.com") ∧
      ∃ a b, d.htmlContent.data = a ++ (exampleUrl ++ b) := by
  unfold getPostWithHtmlContent
  rw [hfind]
  refine ⟨_, rfl, rfl, ?_⟩
  -- the replaced content contains the URL
  obtain ⟨a, b, hab⟩ := replaceAllAux_occurrence "https://example.com".data
    (matterParse e.2).content.data.length (matterParse e.2).content.data u v le_rfl hbody
  have hrep : (jsReplaceAll (matterParse e.2).content
      nextPublicBaseUrlToken "https://example.com").data
      = a ++ (exampleUrl ++ b) := by
    show replaceAllL (matterParse e.2).content.data nextPublicBaseUrlToken.data
        "https://example.com".data = a ++ (exampleUrl ++ b)
    rw [replaceAllL_tok, hab, exampleUrl_eq]
  -- the URL lies within one line of the replaced content
  obtain ⟨la, lb, hm⟩ := @mem_linesL_of_occurrence exampleUrl (by decide) a b
  rw [← hrep] at hm
  -- and rendering keeps it
  obtain ⟨a', b', hfin⟩ := renderLines_occurrence 'h' "ttps://example.com/x".data
    (by decide) (by decide) (by decide) (by decide) (by decide)
    (linesL (jsReplaceAll (matterParse e.2).content
        nextPublicBaseUrlToken "https://example.com").data)
    none _ la lb hm rfl
  exact ⟨a', b', hfin⟩

/-- Witness for C4's amended theorem over a concrete document. -/
theorem baseUrl_replaceAll_renders_verbatim_witness :
    ∃ d, getPostWithHtmlContent "https://example.com"
        [("p.md", "---\ntitle: 'P'\n---\nsee \x7b\x7bNEXT_PUBLIC_BASE_URL\x7d\x7d/x here")]
        "p" = .ok d ∧
      d.htmlContent = marked (jsReplaceAll
          (matterParse "---\ntitle: 'P'\n---\nsee \x7b\x7bNEXT_PUBLIC_BASE_URL\x7d\x7d/x here").content
          nextPublicBaseUrlToken "https://example.com") ∧
      ∃ a b, d.htmlContent.data = a ++ (exampleUrl ++ b) :=
  baseUrl_replaceAll_renders_verbatim
    [("p.md", "---\ntitle: 'P'\n---\nsee \x7b\x7bNEXT_PUBLIC_BASE_URL\x7d\x7d/x here")]
    "p" ("p.md", "---\ntitle: 'P'\n---\nsee \x7b\x7bNEXT_PUBLIC_BASE_URL\x7d\x7d/x here")
    "see ".data " here".data (by decide) (by decide)

end Portfolio
